import Mathlib

/-!
Verification of the gitignore rule-compilation and matching engine.

The Go source has two parts:
* pattern.Parse (package internal/pattern): turns the lines of a .gitignore
  file into a list of compiled patterns, each a regular expression plus a
  negation flag;
* File.Match (package gitignore): evaluates a path against the compiled
  patterns in order.

The embedding works over List Char (Go strings are modelled as character
lists).  The Go code delegates matching to Go's regexp package; here the
regular expressions that Parse builds are parsed into a small syntax tree
(GI.Regex) and matched with Brzozowski derivatives.  The parser models the
fragment of Go (RE2) syntax that the pattern compiler emits: literal
characters, punctuation escapes, the dot, character classes, groups,
alternation, the postfix operators, a leading caret and a trailing dollar.
RE2 features outside this fragment (mid-pattern anchors, repetition counts,
perl classes such as a backslash followed by a letter) are rejected by the
parser; no expression built by the pattern compiler from the inputs studied
here uses them.
-/

namespace GI

/-- Syntax trees for the regular-expression fragment the pattern compiler
emits.  The constructor empt (the empty language) never results from
parsing; it only arises inside derivatives. -/
inductive Regex : Type where
  | empt : Regex
  | eps : Regex
  | char : Char → Regex
  | anyc : Regex
  | cls : Bool → List (Char × Char) → Regex
  | alt : Regex → Regex → Regex
  | seqr : Regex → Regex → Regex
  | star : Regex → Regex
deriving DecidableEq, Repr

/-- Membership of a character in a character class given by ranges; for a
negated class (neg true) the test is inverted.  In RE2 a negated class such
as the one written left bracket, caret, slash, right bracket matches every
character that is not listed, including the newline. -/
def inClass (neg : Bool) (rs : List (Char × Char)) (c : Char) : Bool :=
  (rs.any fun pr => decide (pr.1 ≤ c) && decide (c ≤ pr.2)) != neg

/-- The language of a regular expression, as an inductive predicate over
character lists.  The dot (anyc) matches any character except the newline,
as in RE2 without special flags. -/
inductive Lang : Regex → List Char → Prop where
  | eps : Lang .eps []
  | char (c : Char) : Lang (.char c) [c]
  | anyc (c : Char) : c ≠ '\n' → Lang .anyc [c]
  | cls (neg : Bool) (rs : List (Char × Char)) (c : Char) :
      inClass neg rs c = true → Lang (.cls neg rs) [c]
  | altL (r1 r2 : Regex) (s : List Char) : Lang r1 s → Lang (.alt r1 r2) s
  | altR (r1 r2 : Regex) (s : List Char) : Lang r2 s → Lang (.alt r1 r2) s
  | seqr (r1 r2 : Regex) (s1 s2 : List Char) :
      Lang r1 s1 → Lang r2 s2 → Lang (.seqr r1 r2) (s1 ++ s2)
  | starNil (r : Regex) : Lang (.star r) []
  | starCons (r : Regex) (s1 s2 : List Char) :
      Lang r s1 → Lang (.star r) s2 → Lang (.star r) (s1 ++ s2)

/-- Whether a regular expression accepts the empty string. -/
def nullable : Regex → Bool
  | .empt => false
  | .eps => true
  | .char _ => false
  | .anyc => false
  | .cls _ _ => false
  | .alt a b => nullable a || nullable b
  | .seqr a b => nullable a && nullable b
  | .star _ => true

/-- Smart alternation constructor that drops empty-language branches. -/
def altS : Regex → Regex → Regex
  | .empt, b => b
  | a, .empt => a
  | a, b => .alt a b

/-- Smart concatenation constructor that collapses the empty language and
drops unit factors. -/
def seqS : Regex → Regex → Regex
  | .empt, _ => .empt
  | _, .empt => .empt
  | .eps, b => b
  | a, .eps => a
  | a, b => .seqr a b

/-- Brzozowski derivative of a regular expression by one character. -/
def deriv (c : Char) : Regex → Regex
  | .empt => .empt
  | .eps => .empt
  | .char d => if d = c then .eps else .empt
  | .anyc => if c = '\n' then .empt else .eps
  | .cls neg rs => if inClass neg rs c then .eps else .empt
  | .alt a b => altS (deriv c a) (deriv c b)
  | .seqr a b =>
      if nullable a then altS (seqS (deriv c a) b) (deriv c b)
      else seqS (deriv c a) b
  | .star r => seqS (deriv c r) (.star r)

/-- Derivative-based matcher: r accepts s exactly when the iterated
derivative of r along s is nullable. -/
def rmatch : Regex → List Char → Bool
  | r, [] => nullable r
  | r, c :: s => rmatch (deriv c r) s

/-!
A recursive-descent parser for the regular-expression strings the pattern
compiler emits.  Go's regexp.Compile is the reference; the fragment covered
is described at the top of the file.  The parser is written with explicit
fuel so that it is structurally recursive and evaluates inside the kernel.
-/

/-- Postfix operators: after parsing an atom, a following star, plus or
question mark wraps it.  In RE2, r plus is r followed by r star, and r
question mark matches r or the empty string. -/
def applyPost (r : Regex) (s : List Char) : Regex × List Char :=
  match s with
  | [] => (r, [])
  | c :: t =>
      if c = '*' then (.star r, t)
      else if c = '+' then (.seqr r (.star r), t)
      else if c = '?' then (.alt .eps r, t)
      else (r, c :: t)

/-- Items of a character class, read after the opening bracket (and after a
leading caret, if any), up to the closing bracket.  Ranges are pairs; a
single character is a one-character range.  Running out of input before the
closing bracket is an error, as in RE2 (missing closing bracket). -/
def parseClassItems : List Char → Option (List (Char × Char) × List Char)
  | [] => none
  | ']' :: t => some ([], t)
  | '\\' :: [] => none
  | '\\' :: d :: t =>
      if d.isAlphanum then none
      else (parseClassItems t).map fun r => ((d, d) :: r.1, r.2)
  | c :: '-' :: ']' :: t => some ([(c, c), ('-', '-')], t)
  | c :: '-' :: d :: t =>
      if d = '\\' then none
      else if c ≤ d then (parseClassItems t).map fun r => ((c, d) :: r.1, r.2)
      else none
  | c :: t => (parseClassItems t).map fun r => ((c, c) :: r.1, r.2)

/-- A character class, read after the opening bracket: an optional leading
caret negates it.  An empty class is an error, as in RE2. -/
def parseClass : List Char → Option (Regex × List Char)
  | '^' :: t =>
      (parseClassItems t).bind fun r =>
        match r.1 with
        | [] => none
        | _ => some (.cls true r.1, r.2)
  | t =>
      (parseClassItems t).bind fun r =>
        match r.1 with
        | [] => none
        | _ => some (.cls false r.1, r.2)

/-- Parser modes: a whole alternation, or one branch of it. -/
inductive PMode : Type where
  | alt : PMode
  | seq : PMode
deriving DecidableEq

/-- The recursive-descent parser.  In seq mode it reads a sequence of atoms
(literals, escapes, dot, classes, groups), stopping at a closing bracket, a
bar, a dollar or the end; in alt mode it reads seq branches separated by
bars.  A dangling postfix operator, a mid-pattern caret, an escape of a
letter or digit and an unclosed group are errors.  The fuel argument only
bounds recursion; it never changes the result once large enough. -/
def parseR : Nat → PMode → List Char → Option (Regex × List Char)
  | 0, _, _ => none
  | f + 1, .alt, s =>
      match parseR f .seq s with
      | none => none
      | some (r, s1) =>
          match s1 with
          | [] => some (r, s1)
          | c :: t =>
              if c = '|' then (parseR f .alt t).map fun rs => (.alt r rs.1, rs.2)
              else some (r, s1)
  | f + 1, .seq, s =>
      match s with
      | [] => some (.eps, [])
      | c :: t =>
          if c = ')' || c = '|' || c = '$' then some (.eps, c :: t)
          else if c = '(' then
            match parseR f .alt t with
            | none => none
            | some (g, s1) =>
                match s1 with
                | [] => none
                | c2 :: t2 =>
                    if c2 = ')' then
                      (parseR f .seq (applyPost g t2).2).map
                        fun rs => (.seqr (applyPost g t2).1 rs.1, rs.2)
                    else none
          else if c = '[' then
            match parseClass t with
            | some (cl, t2) =>
                (parseR f .seq (applyPost cl t2).2).map
                  fun rs => (.seqr (applyPost cl t2).1 rs.1, rs.2)
            | none => none
          else if c = '\\' then
            match t with
            | [] => none
            | d :: t2 =>
                if d.isAlphanum then none
                else
                  (parseR f .seq (applyPost (.char d) t2).2).map
                    fun rs => (.seqr (applyPost (.char d) t2).1 rs.1, rs.2)
          else if c = '.' then
            (parseR f .seq (applyPost .anyc t).2).map
              fun rs => (.seqr (applyPost .anyc t).1 rs.1, rs.2)
          else if c = '*' || c = '+' || c = '?' || c = '^' then none
          else
            (parseR f .seq (applyPost (.char c) t).2).map
              fun rs => (.seqr (applyPost (.char c) t).1 rs.1, rs.2)

/-- Model of Go regexp.Compile for the expressions the pattern compiler
builds: every such expression starts with a caret and ends with a dollar;
the body in between is parsed as an alternation, and the parse must consume
everything up to the final dollar. -/
def regexCompile (s : List Char) : Option Regex :=
  match s with
  | '^' :: body =>
      match parseR (2 * body.length + 4) .alt body with
      | some (r, ['$']) => some r
      | _ => none
  | _ => none

/-!
The pattern compiler (pattern.Parse in the Go source) and the match
evaluator (File.Match).  Strings are modelled as character lists; the
string-helper functions below model the Go standard library calls the
compiler makes.
-/

/-- Model of strings.HasPrefix: pre is a prefix of s. -/
def leadsWith : List Char → List Char → Bool
  | [], _ => true
  | _ :: _, [] => false
  | p :: ps, c :: t => p = c && leadsWith ps t

/-- Removes pre from the front of s, or returns none when pre is not a
prefix of s. -/
def stripPre : List Char → List Char → Option (List Char)
  | [], s => some s
  | _ :: _, [] => none
  | p :: ps, c :: t => if p = c then stripPre ps t else none

/-- Worker for replaceAll, walking the input one character at a time.  The
counter holds how many characters of an already-replaced occurrence remain
to be skipped; at zero the worker looks for the pattern at the current
position, emits the replacement when it is there and then skips the rest
of the occurrence. -/
def repSkip (pat rep : List Char) : Nat → List Char → List Char
  | _, [] => []
  | n + 1, _ :: t => repSkip pat rep n t
  | 0, c :: t =>
      match stripPre pat (c :: t) with
      | some _ => rep ++ repSkip pat rep (pat.length - 1) t
      | none => c :: repSkip pat rep 0 t

/-- Leftmost, non-overlapping replacement of every occurrence of pat by
rep.  This is what both strings.ReplaceAll and ReplaceAllString of a
regexp that only contains escaped literals do. -/
def replaceAll (pat rep s : List Char) : List Char :=
  repSkip pat rep 0 s

/-- Model of strings.TrimRight(line, a carriage return): removes every
trailing carriage-return character. -/
def trimRightCR (s : List Char) : List Char :=
  (s.reverse.dropWhile fun c => c = '\r').reverse

/-- Model of strings.Trim(line, a space): removes leading and trailing
spaces. -/
def trimSpaces (s : List Char) : List Char :=
  (((s.dropWhile fun c => c = ' ').reverse.dropWhile fun c => c = ' ')).reverse

/-- Scans for a literal star immediately followed by a literal dot, giving
up at a newline: this realises the dot-star, escaped star, escaped dot part
of the anchoring test regex (the dot of a regexp does not cross a
newline). -/
def hasStarDot : List Char → Bool
  | [] => false
  | c :: t =>
      if c = '*' && leadsWith ['.'] t then true
      else if c = '\n' then false
      else hasStarDot t

/-- Model of MatchString of the anchoring test regex: somewhere in the
line, a character other than a slash or a plus, then a slash, then
(without crossing a newline) a literal star followed by a literal dot. -/
def needsSlashAnchor : List Char → Bool
  | [] => false
  | c :: t =>
      (leadsWith ['/'] t && decide (c ≠ '/') && decide (c ≠ '+') && hasStarDot (t.drop 1))
      || needsSlashAnchor t

/-- The placeholder the compiler substitutes for stars it wants to keep
literal, written hash dollar tilde in the source. -/
def magicStar : List Char := "#$~".toList

/-- A compiled pattern: its regular expression and its negation flag. -/
structure Pattern : Type where
  regex : Regex
  negate : Bool
deriving DecidableEq

/-- Outcome of processing one line: no pattern (comment or blank line), a
compiled pattern, or a compile failure carrying the offending expression
text. -/
inductive LineRes : Type where
  | skip : LineRes
  | pat : Pattern → LineRes
  | err : List Char → LineRes
deriving DecidableEq

/-- The double-star handling of the compiler, after dot escaping: drop the
leading slash of a line starting with slash, double star, slash. -/
def dropLeadingDoubleStar (l : List Char) : List Char :=
  if leadsWith "/**/".toList l then l.drop 1 else l

/-- The replacement cascade of the compiler, innermost first: double star
between slashes, leading double star, trailing double star, escaped star
(protected by the placeholder), bare star, question mark, and finally the
placeholder back to a literal star. -/
def expandStars (l : List Char) : List Char :=
  replaceAll magicStar "*".toList
    (replaceAll "?".toList "\\?".toList
      (replaceAll "*".toList "([^/]*)".toList
        (replaceAll "\\*".toList ("\\" ++ "#$~").toList
          (replaceAll "/**".toList ("(|/." ++ "#$~" ++ ")").toList
            (replaceAll "**/".toList ("(|." ++ "#$~" ++ "/)").toList
              (replaceAll "/**/".toList "(/|/.+/)".toList l))))))

/-- The suffix step of the compiler: a pattern ending in a slash accepts
the directory or anything below it, otherwise the name or anything below
it. -/
def addSuffix (l : List Char) : List Char :=
  if l.getLast? = some '/' then l ++ "(|.*)$".toList
  else l ++ "(|/.*)$".toList

/-- The anchoring step of the compiler: a pattern starting with a slash is
anchored to the path start (with an optional leading slash), any other
pattern may match after any directory prefix. -/
def addAnchor (l : List Char) : List Char :=
  if leadsWith ['/'] l then "^(|/)".toList ++ l.drop 1
  else "^(|.*/)".toList ++ l

/-- The expression-assembly part of the compiler, applied to the line after
comment, negation and slash-anchoring handling: escape dots, handle the
double stars, translate stars and question marks, append the suffix, and
prepend the anchor. -/
def assembleExpr (l : List Char) : List Char :=
  addAnchor (addSuffix (expandStars
    (dropLeadingDoubleStar (replaceAll ['.'] ['\\', '.'] l))))

/-- The line-classification part of the scanner loop of pattern.Parse:
trims the line, filters comments and blanks, extracts negation, strips one
leading hash or bang and prepends the implicit slash anchor.  The result is
the negation flag together with the line the expression is assembled from,
or nothing for a comment or blank line. -/
def classifyLine (line0 : List Char) : Option (Bool × List Char) :=
  let line1 := trimRightCR line0
  if leadsWith ['#'] line1 then none
  else
    let line2 := trimSpaces line1
    if line2 = [] then none
    else
      let negate := leadsWith ['!'] line2
      let line3 := if negate then line2.drop 1 else line2
      let line4 :=
        if leadsWith ['#'] line3 || leadsWith ['!'] line3 then line3.drop 1 else line3
      let line5 :=
        if needsSlashAnchor line4 && !leadsWith ['/'] line4 then '/' :: line4
        else line4
      some (negate, line5)

/-- One iteration of the scanner loop of pattern.Parse: classifies the
line, assembles the regular-expression text and compiles it. -/
def processLine (line0 : List Char) : LineRes :=
  match classifyLine line0 with
  | none => .skip
  | some (negate, line5) =>
      match regexCompile (assembleExpr line5) with
      | some r => .pat ⟨r, negate⟩
      | none => .err (assembleExpr line5)

/-- The compile error of pattern.Parse: the source wraps ErrInvalidRegex
together with the assembled expression text and the line number. -/
structure CompileErr : Type where
  line : Nat
  expr : List Char
deriving DecidableEq

/-- The scanner loop of pattern.Parse over the remaining lines, with the
number of the next line (the source counts lines from one, including
comment and blank lines). -/
def parseLoop : List (List Char) → Nat → Except CompileErr (List Pattern)
  | [], _ => .ok []
  | l :: ls, n =>
      match processLine l with
      | .skip => parseLoop ls (n + 1)
      | .pat p => (parseLoop ls (n + 1)).map fun ps => p :: ps
      | .err expr => .error ⟨n, expr⟩

/-- Model of pattern.Parse: the reader is modelled as the list of lines the
scanner produces from it. -/
def Parse (lines : List (List Char)) : Except CompileErr (List Pattern) :=
  parseLoop lines 1

/-- The matcher object of the gitignore package: it holds the compiled
patterns. -/
structure File : Type where
  patterns : List Pattern
deriving DecidableEq

/-- Model of gitignore.NewFromLines: joins the lines, scans them back and
parses; with newline-free lines the scanner returns the same lines, so the
model parses the given list directly. -/
def NewFromLines (lines : List (List Char)) : Except CompileErr File :=
  (Parse lines).map File.mk

/-- The path-separator normalisation at the top of File.Match; on the
reference platform os.PathSeparator is the slash. -/
def pathSeparator : Char := '/'

/-- Model of strings.ReplaceAll(path, string(os.PathSeparator), a slash)
for a one-character separator. -/
def normalizeSep (path : List Char) : List Char :=
  path.map fun c => if c = pathSeparator then '/' else c

/-- The rule-scanning loop of File.Match: the verdict accumulator starts
false; a matching negation rule returns false immediately; a matching
positive rule sets the verdict true and scanning continues. -/
def matchLoop : List Pattern → List Char → Bool → Bool
  | [], _, verdict => verdict
  | p :: ps, path, verdict =>
      if rmatch p.regex path then
        if p.negate then false else matchLoop ps path true
      else matchLoop ps path verdict

/-- Model of File.Match. -/
def File.Match (f : File) (path : List Char) : Bool :=
  matchLoop f.patterns (normalizeSep path) false

/-!
Notions used to state the literal-rule claim: a literal rule is a nonempty
line of plain characters (letters, digits, dots, dashes, underscores and
similar), possibly with inner slashes, with no leading or trailing slash.
Such a line passes through the whole compilation pipeline untouched except
for dot escaping, and compiles to a regular expression with a known shape.
-/

/-- Dot escaping as a plain function: what the dot-escaping replacement of
the pipeline does to a line that is then left alone by the later
replacements. -/
def escDots : List Char → List Char
  | [] => []
  | c :: t => if c = '.' then '\\' :: '.' :: escDots t else c :: escDots t

/-- Characters with no special meaning anywhere in the pipeline or in the
compiled expression: everything except the glob and regexp metacharacters,
the comment and negation markers, the placeholder characters, space and the
line-control characters.  The dot is allowed (it is escaped); the slash is
handled separately. -/
def litChar (c : Char) : Bool :=
  !(c ∈ ['*', '?', '\\', '/', '#', '!', '$', '~', '(', ')', '|', '[', ']',
         '^', '+', '\x7b', '\x7d', ' ', '\r', '\n'])

/-- A single positive literal rule: nonempty, made of plain characters and
inner slashes, not starting or ending with a slash. -/
def LitRule (p : List Char) : Prop :=
  p ≠ [] ∧ (∀ c ∈ p, litChar c = true ∨ c = '/') ∧
    p.head? ≠ some '/' ∧ p.getLast? ≠ some '/'

instance (p : List Char) : Decidable (LitRule p) := by
  unfold LitRule
  infer_instance

/-- The chain of one-character matchers a literal rule turns into, ending
in the given continuation. -/
def litFold : List Char → Regex → Regex
  | [], k => k
  | c :: t, k => .seqr (.char c) (litFold t k)

/-- The parse of the unanchored-rule regexp prefix: the empty string, or
any run of non-newline characters ending in a slash. -/
def G1 : Regex :=
  .alt .eps (.seqr (.star .anyc) (.seqr (.char '/') .eps))

/-- The parse of the suffix appended to a rule without a trailing slash:
the empty string, or a slash followed by any run of non-newline
characters. -/
def G2 : Regex :=
  .alt .eps (.seqr (.char '/') (.seqr (.star .anyc) .eps))

/-- The syntax tree the compiled expression of a literal rule parses
to. -/
def litAST (p : List Char) : Regex :=
  .seqr G1 (litFold p (.seqr G2 .eps))

/-- The expression text the pipeline assembles for a literal rule. -/
def litExpr (p : List Char) : List Char :=
  "^(|.*/)".toList ++ escDots p ++ "(|/.*)$".toList

/-- Whether the head of the remaining input is not a postfix operator, so
that applyPost leaves an atom alone. -/
def headOk : List Char → Bool
  | [] => true
  | c :: _ => !(c = '*' || c = '+' || c = '?')

theorem lang_empt_iff (s : List Char) : Lang .empt s ↔ False := by
  constructor
  · intro h; cases h
  · intro h; exact h.elim

theorem lang_eps_iff (s : List Char) : Lang .eps s ↔ s = [] := by
  constructor
  · intro h; cases h; rfl
  · rintro rfl; exact Lang.eps

theorem lang_char_iff (c : Char) (s : List Char) : Lang (.char c) s ↔ s = [c] := by
  constructor
  · intro h; cases h; rfl
  · rintro rfl; exact Lang.char c

theorem lang_anyc_iff (s : List Char) : Lang .anyc s ↔ ∃ c, s = [c] ∧ c ≠ '\n' := by
  constructor
  · intro h; cases h with
    | anyc c hc => exact ⟨c, rfl, hc⟩
  · rintro ⟨c, rfl, hc⟩; exact Lang.anyc c hc

theorem lang_cls_iff (neg : Bool) (rs : List (Char × Char)) (s : List Char) :
    Lang (.cls neg rs) s ↔ ∃ c, s = [c] ∧ inClass neg rs c = true := by
  constructor
  · intro h; cases h with
    | cls _ _ c hc => exact ⟨c, rfl, hc⟩
  · rintro ⟨c, rfl, hc⟩; exact Lang.cls neg rs c hc

theorem lang_alt_iff (a b : Regex) (s : List Char) :
    Lang (.alt a b) s ↔ Lang a s ∨ Lang b s := by
  constructor
  · intro h; cases h with
    | altL _ _ _ h => exact Or.inl h
    | altR _ _ _ h => exact Or.inr h
  · rintro (h | h)
    · exact Lang.altL a b s h
    · exact Lang.altR a b s h

theorem lang_seqr_iff (a b : Regex) (s : List Char) :
    Lang (.seqr a b) s ↔ ∃ s1 s2, s = s1 ++ s2 ∧ Lang a s1 ∧ Lang b s2 := by
  constructor
  · intro h; cases h with
    | seqr _ _ s1 s2 h1 h2 => exact ⟨s1, s2, rfl, h1, h2⟩
  · rintro ⟨s1, s2, rfl, h1, h2⟩; exact Lang.seqr a b s1 s2 h1 h2

theorem lang_altS (a b : Regex) (s : List Char) :
    Lang (altS a b) s ↔ Lang a s ∨ Lang b s := by
  cases a <;> cases b <;>
    simp [altS, lang_alt_iff, lang_empt_iff]

theorem lang_seqS (a b : Regex) (s : List Char) :
    Lang (seqS a b) s ↔ ∃ s1 s2, s = s1 ++ s2 ∧ Lang a s1 ∧ Lang b s2 := by
  cases a <;> cases b <;> (
    simp only [seqS]
    first
      | (constructor
         · intro h; cases h
         · rintro ⟨s1, s2, rfl, h1, h2⟩; cases h1)
      | (constructor
         · intro h; cases h
         · rintro ⟨s1, s2, rfl, h1, h2⟩; cases h2)
      | (constructor
         · intro h; exact ⟨[], s, rfl, Lang.eps, h⟩
         · rintro ⟨s1, s2, rfl, h1, h2⟩
           obtain rfl := (lang_eps_iff s1).mp h1
           simpa using h2)
      | (constructor
         · intro h; exact ⟨s, [], by simp, h, Lang.eps⟩
         · rintro ⟨s1, s2, rfl, h1, h2⟩
           obtain rfl := (lang_eps_iff s2).mp h2
           simpa using h1)
      | exact lang_seqr_iff _ _ s)

theorem nullable_iff (r : Regex) : nullable r = true ↔ Lang r [] := by
  induction r with
  | empt => simp [nullable, lang_empt_iff]
  | eps => simp [nullable, lang_eps_iff]
  | char c => simp [nullable, lang_char_iff]
  | anyc => simp [nullable, lang_anyc_iff]
  | cls neg rs => simp [nullable, lang_cls_iff]
  | alt a b ha hb => simp [nullable, lang_alt_iff, ha, hb]
  | seqr a b ha hb =>
      simp only [nullable, Bool.and_eq_true, ha, hb, lang_seqr_iff]
      constructor
      · rintro ⟨h1, h2⟩; exact ⟨[], [], rfl, h1, h2⟩
      · rintro ⟨s1, s2, h, h1, h2⟩
        rcases List.append_eq_nil.mp h.symm with ⟨rfl, rfl⟩
        exact ⟨h1, h2⟩
  | star r _ =>
      simp only [nullable, true_iff]
      exact Lang.starNil r

theorem lang_star_split (q : Regex) (x : List Char) (h : Lang q x) :
    ∀ r, q = .star r →
      x = [] ∨ ∃ s1 s2, x = s1 ++ s2 ∧ s1 ≠ [] ∧ Lang r s1 ∧ Lang (.star r) s2 := by
  induction h with
  | eps => intro r hq; cases hq
  | char c => intro r hq; cases hq
  | anyc c hc => intro r hq; cases hq
  | cls neg rs c hc => intro r hq; cases hq
  | altL r1 r2 s h ih => intro r hq; cases hq
  | altR r1 r2 s h ih => intro r hq; cases hq
  | seqr r1 r2 s1 s2 h1 h2 ih1 ih2 => intro r hq; cases hq
  | starNil r' => intro r hq; exact Or.inl rfl
  | starCons r' s1 s2 h1 h2 ih1 ih2 =>
      intro r hq
      injection hq with hq'
      subst hq'
      cases s1 with
      | nil => simpa using ih2 _ rfl
      | cons d t => exact Or.inr ⟨d :: t, s2, rfl, by simp, h1, h2⟩

theorem lang_star_cons (r : Regex) (c : Char) (s : List Char)
    (h : Lang (.star r) (c :: s)) :
    ∃ s1 s2, s = s1 ++ s2 ∧ Lang r (c :: s1) ∧ Lang (.star r) s2 := by
  rcases lang_star_split _ _ h r rfl with h0 | ⟨s1, s2, hx, hne, h1, h2⟩
  · exact absurd h0 (by simp)
  · cases s1 with
    | nil => exact absurd rfl hne
    | cons d t =>
        rcases List.cons_eq_cons.mp hx with ⟨rfl, rfl⟩
        exact ⟨t, s2, rfl, h1, h2⟩

theorem deriv_iff (r : Regex) (c : Char) (s : List Char) :
    Lang (deriv c r) s ↔ Lang r (c :: s) := by
  induction r generalizing s with
  | empt => simp [deriv, lang_empt_iff]
  | eps =>
      simp [deriv, lang_empt_iff, lang_eps_iff]
  | char d =>
      rw [deriv]
      by_cases h : d = c
      · subst h
        rw [if_pos rfl, lang_eps_iff, lang_char_iff]
        simp
      · rw [if_neg h, lang_empt_iff, lang_char_iff]
        simp only [false_iff]
        intro hc
        exact h (List.cons_eq_cons.mp hc).1.symm
  | anyc =>
      rw [deriv]
      by_cases h : c = '\n'
      · subst h
        rw [if_pos rfl, lang_empt_iff, lang_anyc_iff]
        simp only [false_iff, not_exists]
        rintro d ⟨hd, hne⟩
        exact hne (List.cons_eq_cons.mp hd).1.symm
      · rw [if_neg h, lang_eps_iff, lang_anyc_iff]
        constructor
        · rintro rfl; exact ⟨c, rfl, h⟩
        · rintro ⟨d, hd, _⟩
          exact (List.cons_eq_cons.mp hd).2
  | cls neg rs =>
      rw [deriv]
      by_cases h : inClass neg rs c = true
      · rw [if_pos h, lang_eps_iff, lang_cls_iff]
        constructor
        · rintro rfl; exact ⟨c, rfl, h⟩
        · rintro ⟨d, hd, _⟩
          exact (List.cons_eq_cons.mp hd).2
      · rw [if_neg h, lang_empt_iff, lang_cls_iff]
        simp only [false_iff, not_exists]
        rintro d ⟨hd, hin⟩
        obtain rfl := (List.cons_eq_cons.mp hd).1
        exact h hin
  | alt a b ha hb =>
      simp [deriv, lang_altS, lang_alt_iff, ha, hb]
  | seqr a b ha hb =>
      by_cases h : nullable a = true
      · simp only [deriv, h, if_pos, lang_altS, lang_seqS, lang_seqr_iff, ha, hb]
        constructor
        · rintro (⟨s1, s2, rfl, h1, h2⟩ | h2)
          · exact ⟨c :: s1, s2, rfl, h1, h2⟩
          · exact ⟨[], c :: s, rfl, (nullable_iff a).mp h, h2⟩
        · rintro ⟨s1, s2, hs, h1, h2⟩
          cases s1 with
          | nil =>
              refine Or.inr ?_
              rw [List.nil_append] at hs
              exact hs ▸ h2
          | cons d t =>
              rcases List.cons_eq_cons.mp hs with ⟨rfl, rfl⟩
              exact Or.inl ⟨t, s2, rfl, h1, h2⟩
      · simp only [deriv, h, if_neg, Bool.false_eq_true, not_false_iff, lang_seqS,
          lang_seqr_iff, ha]
        constructor
        · rintro ⟨s1, s2, rfl, h1, h2⟩
          exact ⟨c :: s1, s2, rfl, h1, h2⟩
        · rintro ⟨s1, s2, hs, h1, h2⟩
          cases s1 with
          | nil =>
              exact absurd ((nullable_iff a).mpr h1) (by simpa using h)
          | cons d t =>
              rcases List.cons_eq_cons.mp hs with ⟨rfl, rfl⟩
              exact ⟨t, s2, rfl, h1, h2⟩
  | star r ih =>
      simp only [deriv, lang_seqS]
      constructor
      · rintro ⟨s1, s2, rfl, h1, h2⟩
        exact Lang.starCons r (c :: s1) s2 ((ih s1).mp h1) h2
      · intro h
        rcases lang_star_cons r c s h with ⟨s1, s2, rfl, h1, h2⟩
        exact ⟨s1, s2, rfl, (ih s1).mpr h1, h2⟩

theorem rmatch_iff (r : Regex) (s : List Char) : rmatch r s = true ↔ Lang r s := by
  induction s generalizing r with
  | nil => exact nullable_iff r
  | cons c t ih =>
      simpa [rmatch, ih (deriv c r)] using deriv_iff r c t

/-!
The scanning loop returns true exactly when some positive rule matches and
no negation rule matches: a matching negation rule returns false from
whatever position it is scanned at, and positive matches only accumulate.
This closed form drives the claims about evaluation order.
-/

theorem matchLoop_eq (ps : List Pattern) (path : List Char) (acc : Bool) :
    matchLoop ps path acc =
      ((acc || ps.any fun r => !r.negate && rmatch r.regex path) &&
        !(ps.any fun r => r.negate && rmatch r.regex path)) := by
  induction ps generalizing acc with
  | nil => simp [matchLoop]
  | cons p ps ih =>
      cases hn : p.negate <;> cases hm : rmatch p.regex path <;>
        simp [matchLoop, hm, hn, ih, Bool.or_assoc]

theorem Match_eq (f : File) (path : List Char) :
    f.Match path =
      ((f.patterns.any fun r => !r.negate && rmatch r.regex (normalizeSep path)) &&
        !(f.patterns.any fun r => r.negate && rmatch r.regex (normalizeSep path))) := by
  unfold File.Match
  rw [matchLoop_eq]
  simp

theorem any_perm {α : Type} {l1 l2 : List α} (h : l1.Perm l2) (p : α → Bool) :
    l1.any p = l2.any p := by
  cases hb : l2.any p
  · rw [List.any_eq_false] at hb ⊢
    intro x hx
    exact hb x (h.mem_iff.mp hx)
  · rw [List.any_eq_true] at hb ⊢
    rcases hb with ⟨x, hx, hpx⟩
    exact ⟨x, h.mem_iff.mpr hx, hpx⟩

theorem any_congrB {α : Type} {l : List α} {p q : α → Bool}
    (h : ∀ x ∈ l, p x = q x) : l.any p = l.any q := by
  induction l with
  | nil => rfl
  | cons a t ih =>
      simp only [List.any_cons, h a (by simp)]
      rw [ih fun x hx => h x (by simp [hx])]

/-!
Helper lemmas for the literal-rule claim: a literal line passes through the
string pipeline untouched except for dot escaping.
-/

theorem stripPre_mem {pat s r : List Char} (h : stripPre pat s = some r) :
    ∀ x ∈ pat, x ∈ s := by
  induction pat generalizing s with
  | nil => intro x hx; cases hx
  | cons p ps ih =>
      cases s with
      | nil => simp [stripPre] at h
      | cons c t =>
          simp only [stripPre] at h
          by_cases hpc : p = c
          · rw [if_pos hpc] at h
            intro x hx
            rcases List.mem_cons.mp hx with rfl | hx2
            · subst hpc; exact List.mem_cons_self _ _
            · exact List.mem_cons_of_mem _ (ih h x hx2)
          · rw [if_neg hpc] at h; cases h

theorem repSkip_id (c : Char) {pat rep : List Char} (hc : c ∈ pat) :
    ∀ (s : List Char), (∀ d ∈ s, d ≠ c) → repSkip pat rep 0 s = s := by
  intro s
  induction s with
  | nil => intro _; rfl
  | cons a t ih =>
      intro hs
      rw [repSkip]
      cases hsp : stripPre pat (a :: t) with
      | some rest =>
          exact absurd rfl (hs c (stripPre_mem hsp c hc))
      | none =>
          rw [ih fun d hd => hs d (List.mem_cons_of_mem _ hd)]

theorem replaceAll_id (c : Char) {pat rep : List Char} (hc : c ∈ pat)
    {s : List Char} (hs : ∀ d ∈ s, d ≠ c) : replaceAll pat rep s = s :=
  repSkip_id c hc s hs

theorem repSkip_dot :
    ∀ (s : List Char), repSkip ['.'] ['\\', '.'] 0 s = escDots s := by
  intro s
  induction s with
  | nil => rfl
  | cons c t ih =>
      rw [repSkip]
      have hstrip : stripPre ['.'] (c :: t) =
          if ('.' : Char) = c then some t else none := rfl
      by_cases hc : c = '.'
      · subst hc
        rw [hstrip, if_pos rfl]
        show ['\\', '.'] ++ repSkip ['.'] ['\\', '.'] 0 t = escDots ('.' :: t)
        rw [escDots, if_pos rfl, ih]
        rfl
      · rw [hstrip, if_neg fun h => hc h.symm]
        show c :: repSkip ['.'] ['\\', '.'] 0 t = escDots (c :: t)
        rw [escDots, if_neg hc, ih]

theorem replaceAll_dot (s : List Char) :
    replaceAll ['.'] ['\\', '.'] s = escDots s :=
  repSkip_dot s

theorem escDots_ne_nil {p : List Char} (hp : p ≠ []) : escDots p ≠ [] := by
  cases p with
  | nil => exact absurd rfl hp
  | cons c t => by_cases hc : c = '.' <;> simp [escDots, hc]

theorem mem_escDots {x : Char} {p : List Char} (hx : x ∈ escDots p) :
    x ∈ p ∨ x = '\\' := by
  induction p with
  | nil => cases hx
  | cons c t ih =>
      by_cases hc : c = '.'
      · subst hc
        rw [escDots, if_pos rfl] at hx
        rcases List.mem_cons.mp hx with rfl | hx2
        · exact Or.inr rfl
        · rcases List.mem_cons.mp hx2 with rfl | hx3
          · exact Or.inl (List.mem_cons_self _ _)
          · rcases ih hx3 with h | h
            · exact Or.inl (List.mem_cons_of_mem _ h)
            · exact Or.inr h
      · rw [escDots, if_neg hc] at hx
        rcases List.mem_cons.mp hx with rfl | hx2
        · exact Or.inl (List.mem_cons_self _ _)
        · rcases ih hx2 with h | h
          · exact Or.inl (List.mem_cons_of_mem _ h)
          · exact Or.inr h

theorem escDots_cons (c : Char) (t : List Char) :
    escDots (c :: t) = (if c = '.' then ['\\', '.'] else [c]) ++ escDots t := by
  by_cases hc : c = '.' <;> simp [escDots, hc]

theorem escDots_head (c : Char) (t : List Char) :
    (escDots (c :: t)).head? = some (if c = '.' then '\\' else c) := by
  by_cases hc : c = '.' <;> simp [escDots, hc]

theorem escDots_getLast {p : List Char}
    (h : (escDots p).getLast? = some '/') : p.getLast? = some '/' := by
  induction p with
  | nil => simp [escDots] at h
  | cons c t ih =>
      cases t with
      | nil =>
          by_cases hc : c = '.'
          · simp [escDots, hc] at h
          · simp [escDots, hc] at h
            simp [h]
      | cons d u =>
          have hne : escDots (d :: u) ≠ [] := escDots_ne_nil (by simp)
          rw [escDots_cons, List.getLast?_append_of_ne_nil _ hne] at h
          rw [List.getLast?_cons_cons]
          exact ih h

theorem dropWhile_eq_self_of {q : Char → Bool} {s : List Char}
    (h : ∀ c ∈ s, q c = false) : s.dropWhile q = s := by
  cases s with
  | nil => rfl
  | cons c t => rw [List.dropWhile_cons, h c (List.mem_cons_self _ _)]; simp

theorem trimRightCR_id {p : List Char} (h : ∀ c ∈ p, c ≠ '\r') :
    trimRightCR p = p := by
  unfold trimRightCR
  rw [dropWhile_eq_self_of, List.reverse_reverse]
  intro c hc
  simpa using h c (List.mem_reverse.mp hc)

theorem trimSpaces_id {p : List Char} (h : ∀ c ∈ p, c ≠ ' ') :
    trimSpaces p = p := by
  unfold trimSpaces
  have h1 : List.dropWhile (fun c => decide (c = ' ')) p = p :=
    dropWhile_eq_self_of fun c hc => by simpa using h c hc
  rw [h1, dropWhile_eq_self_of, List.reverse_reverse]
  intro c hc
  simpa using h c (List.mem_reverse.mp hc)

theorem hasStarDot_false {s : List Char} (h : ∀ c ∈ s, c ≠ '*') :
    hasStarDot s = false := by
  induction s with
  | nil => rfl
  | cons c t ih =>
      have hc : c ≠ '*' := h c (List.mem_cons_self _ _)
      rw [hasStarDot, if_neg (by simp [hc])]
      by_cases hn : c = '\n'
      · rw [if_pos hn]
      · rw [if_neg hn]
        exact ih fun d hd => h d (List.mem_cons_of_mem _ hd)

theorem needsSlashAnchor_false {s : List Char} (h : ∀ c ∈ s, c ≠ '*') :
    needsSlashAnchor s = false := by
  induction s with
  | nil => rfl
  | cons c t ih =>
      rw [needsSlashAnchor,
        hasStarDot_false fun d hd =>
          h d (List.mem_cons_of_mem _ (List.drop_subset 1 t hd)),
        ih fun d hd => h d (List.mem_cons_of_mem _ hd)]
      simp

/-!
Parser lemmas for the literal-rule claim: parsing the assembled expression
of a literal rule yields the expected syntax tree.  The fuel argument is
threaded exactly, so no monotonicity argument is needed.
-/

theorem escDots_length (p : List Char) : p.length ≤ (escDots p).length := by
  induction p with
  | nil => exact le_rfl
  | cons c t ih =>
      by_cases hc : c = '.' <;> simp [escDots, hc] <;> omega

theorem applyPost_headOk (r : Regex) {s : List Char} (h : headOk s = true) :
    applyPost r s = (r, s) := by
  cases s with
  | nil => rfl
  | cons c t =>
      simp only [headOk, Bool.not_eq_true', Bool.or_eq_false_iff,
        decide_eq_false_iff_not] at h
      simp [applyPost, h.1.1, h.1.2, h.2]

theorem litChar_not_post {d : Char} (hd : litChar d = true ∨ d = '/')
    (t : List Char) : headOk (d :: t) = true := by
  rcases hd with hd | rfl
  · have h1 : d ≠ '*' := by rintro rfl; simp [litChar] at hd
    have h2 : d ≠ '+' := by rintro rfl; simp [litChar] at hd
    have h3 : d ≠ '?' := by rintro rfl; simp [litChar] at hd
    simp [headOk, h1, h2, h3]
  · rfl

theorem headOk_escDots (p : List Char)
    (hp : ∀ c ∈ p, litChar c = true ∨ c = '/') :
    headOk (escDots p ++ "(|/.*)$".toList) = true := by
  cases p with
  | nil => rfl
  | cons d u =>
      have hd := hp d (List.mem_cons_self _ _)
      rw [escDots_cons]
      by_cases hdd : d = '.'
      · rw [if_pos hdd]; rfl
      · rw [if_neg hdd]
        show headOk (d :: (escDots u ++ "(|/.*)$".toList)) = true
        exact litChar_not_post hd _

theorem parseR_seq_step {c : Char} (hc : litChar c = true ∨ c = '/')
    (hne : c ≠ '.') (f : Nat) (t : List Char) :
    parseR (f + 1) .seq (c :: t) =
      (parseR f .seq (applyPost (.char c) t).2).map
        fun rs => (.seqr (applyPost (.char c) t).1 rs.1, rs.2) := by
  have hneX : ∀ x ∈ [')', '|', '$', '(', '[', '\\', '*', '+', '?', '^'], c ≠ x := by
    rcases hc with hcl | rfl
    · intro x hx hcx
      subst hcx
      fin_cases hx <;> simp [litChar] at hcl
    · decide
  simp only [parseR]
  rw [if_neg (by simp [hneX ')' (by simp), hneX '|' (by simp), hneX '$' (by simp)]),
    if_neg (hneX '(' (by simp)), if_neg (hneX '[' (by simp)),
    if_neg (hneX '\\' (by simp)), if_neg hne,
    if_neg (by simp [hneX '*' (by simp), hneX '+' (by simp), hneX '?' (by simp),
      hneX '^' (by simp)])]

theorem parseR_seq_esc (f : Nat) {d : Char} (hd : d.isAlphanum = false)
    (t : List Char) :
    parseR (f + 1) .seq ('\\' :: d :: t) =
      (parseR f .seq (applyPost (.char d) t).2).map
        fun rs => (.seqr (applyPost (.char d) t).1 rs.1, rs.2) := by
  have h0 : parseR (f + 1) .seq ('\\' :: d :: t) =
      if d.isAlphanum then none else
        (parseR f .seq (applyPost (.char d) t).2).map
          fun rs => (.seqr (applyPost (.char d) t).1 rs.1, rs.2) := rfl
  rw [h0, if_neg (by simp [hd])]

theorem parseR_seq_group1 (f : Nat) {t : List Char} (hOk : headOk t = true) :
    parseR (f + 6) .seq ('(' :: '|' :: '.' :: '*' :: '/' :: ')' :: t) =
      (parseR (f + 5) .seq t).map fun rs => (.seqr G1 rs.1, rs.2) := by
  have h0 : parseR (f + 6) .seq ('(' :: '|' :: '.' :: '*' :: '/' :: ')' :: t) =
      (parseR (f + 5) .seq (applyPost G1 t).2).map
        fun rs => (.seqr (applyPost G1 t).1 rs.1, rs.2) := rfl
  rw [h0, applyPost_headOk G1 hOk]

theorem parseR_seq_suffix (f : Nat) :
    parseR (f + 9) .seq "(|/.*)$".toList = some (.seqr G2 .eps, ['$']) := rfl

theorem parseR_alt_dollar (f : Nat) {s : List Char} {r : Regex}
    {rest : List Char} (h : parseR f .seq s = some (r, '$' :: rest)) :
    parseR (f + 1) .alt s = some (r, '$' :: rest) := by
  simp only [parseR]
  rw [h]
  rfl

theorem parseR_lit_chain :
    ∀ (p : List Char), (∀ c ∈ p, litChar c = true ∨ c = '/') → ∀ f : Nat,
      parseR (f + p.length + 9) .seq (escDots p ++ "(|/.*)$".toList) =
        some (litFold p (.seqr G2 .eps), ['$']) := by
  intro p
  induction p with
  | nil =>
      intro _ f
      simpa [escDots, litFold] using parseR_seq_suffix f
  | cons c cs ih =>
      intro hp f
      have hc := hp c (List.mem_cons_self _ _)
      have hcs : ∀ x ∈ cs, litChar x = true ∨ x = '/' :=
        fun x hx => hp x (List.mem_cons_of_mem _ hx)
      have hOk : headOk (escDots cs ++ "(|/.*)$".toList) = true :=
        headOk_escDots cs hcs
      have harith : f + (c :: cs).length + 9 = (f + cs.length + 9) + 1 := by
        simp [List.length_cons]
        omega
      rw [harith, escDots_cons]
      by_cases hdd : c = '.'
      · subst hdd
        rw [if_pos rfl]
        show parseR ((f + cs.length + 9) + 1) .seq
            ('\\' :: '.' :: (escDots cs ++ "(|/.*)$".toList)) = _
        rw [parseR_seq_esc (f + cs.length + 9) (by decide) _,
          applyPost_headOk _ hOk, ih hcs f]
        rfl
      · rw [if_neg hdd]
        show parseR ((f + cs.length + 9) + 1) .seq
            (c :: (escDots cs ++ "(|/.*)$".toList)) = _
        rw [parseR_seq_step hc hdd (f + cs.length + 9) _,
          applyPost_headOk _ hOk, ih hcs f]
        rfl

theorem regexCompile_lit (p : List Char)
    (hp : ∀ c ∈ p, litChar c = true ∨ c = '/') :
    regexCompile (litExpr p) = some (litAST p) := by
  have hlen : p.length ≤ (escDots p).length := escDots_length p
  have hbody : litExpr p =
      '^' :: ('(' :: '|' :: '.' :: '*' :: '/' :: ')' ::
        (escDots p ++ "(|/.*)$".toList)) := by
    simp [litExpr]
  have h1 : parseR (2 * (escDots p).length + 28) .seq
      (escDots p ++ "(|/.*)$".toList) =
      some (litFold p (.seqr G2 .eps), ['$']) := by
    have hf : (2 * (escDots p).length + 19 - p.length) + p.length + 9 =
        2 * (escDots p).length + 28 := by omega
    have := parseR_lit_chain p hp (2 * (escDots p).length + 19 - p.length)
    rwa [hf] at this
  have h2 : parseR (2 * (escDots p).length + 29) .seq
      ('(' :: '|' :: '.' :: '*' :: '/' :: ')' ::
        (escDots p ++ "(|/.*)$".toList)) =
      some (litAST p, ['$']) := by
    have hg := parseR_seq_group1 (2 * (escDots p).length + 23)
      (headOk_escDots p hp)
    have ha : 2 * (escDots p).length + 23 + 6 =
        2 * (escDots p).length + 29 := by omega
    have hb : 2 * (escDots p).length + 23 + 5 =
        2 * (escDots p).length + 28 := by omega
    rw [ha, hb, h1] at hg
    simpa [litAST] using hg
  have h3 : parseR (2 * (escDots p).length + 30) .alt
      ('(' :: '|' :: '.' :: '*' :: '/' :: ')' ::
        (escDots p ++ "(|/.*)$".toList)) =
      some (litAST p, ['$']) := by
    have := parseR_alt_dollar (2 * (escDots p).length + 29) h2
    simpa using this
  rw [hbody]
  simp only [regexCompile]
  have hblen : ('(' :: '|' :: '.' :: '*' :: '/' :: ')' ::
      (escDots p ++ "(|/.*)$".toList)).length =
      (escDots p).length + 13 := by
    simp
  rw [hblen]
  have hfuel : 2 * ((escDots p).length + 13) + 4 =
      2 * (escDots p).length + 30 := by omega
  rw [hfuel, h3]
  rfl

/-!
Pipeline lemmas for the literal-rule claim: a literal line survives the
whole compilation pipeline with only its dots escaped, and compiles to the
expected pattern.
-/

theorem litp_ne {c x : Char} (hc : litChar c = true ∨ c = '/')
    (hx : litChar x = false) (hxs : x ≠ '/') : c ≠ x := by
  rintro rfl
  rcases hc with hc | hc
  · rw [hc] at hx; cases hx
  · exact hxs hc

theorem leadsWith_false_of_head {x : Char} {xs s : List Char}
    (h : ∀ c, s.head? = some c → c ≠ x) : leadsWith (x :: xs) s = false := by
  cases s with
  | nil => rfl
  | cons a t =>
      have hxa : x ≠ a := fun hh => (h a rfl) hh.symm
      simp [leadsWith, hxa]

theorem assembleExpr_lit {p : List Char} (hne : p ≠ [])
    (hchars : ∀ c ∈ p, litChar c = true ∨ c = '/')
    (hhead : p.head? ≠ some '/') (hlast : p.getLast? ≠ some '/') :
    assembleExpr p = litExpr p := by
  have hch : ∀ x, litChar x = false → x ≠ '/' → ∀ c ∈ p, c ≠ x :=
    fun x hx hxs c hc => litp_ne (hchars c hc) hx hxs
  have hstar_not : ∀ d ∈ escDots p, d ≠ '*' := by
    intro d hd
    rcases mem_escDots hd with h | rfl
    · exact hch '*' (by decide) (by decide) d h
    · decide
  have hqm_not : ∀ d ∈ escDots p, d ≠ '?' := by
    intro d hd
    rcases mem_escDots hd with h | rfl
    · exact hch '?' (by decide) (by decide) d h
    · decide
  have hhash_not : ∀ d ∈ escDots p, d ≠ '#' := by
    intro d hd
    rcases mem_escDots hd with h | rfl
    · exact hch '#' (by decide) (by decide) d h
    · decide
  have hesc_head : ∀ c, (escDots p).head? = some c → c ≠ '/' := by
    intro c hc hcs
    subst hcs
    cases p with
    | nil => cases hc
    | cons a t =>
        rw [escDots_head] at hc
        by_cases ha : a = '.'
        · rw [if_pos ha] at hc
          simp at hc
        · rw [if_neg ha] at hc
          have : a = '/' := by simpa using hc
          exact hhead (by simp [this])
  have hlw4 : leadsWith "/**/".toList (escDots p) = false :=
    leadsWith_false_of_head hesc_head
  have hid1 : replaceAll "/**/".toList "(/|/.+/)".toList (escDots p) = escDots p :=
    replaceAll_id '*' (by decide) hstar_not
  have hid2 : replaceAll "**/".toList ("(|." ++ "#$~" ++ "/)").toList (escDots p) =
      escDots p :=
    replaceAll_id '*' (by decide) hstar_not
  have hid3 : replaceAll "/**".toList ("(|/." ++ "#$~" ++ ")").toList (escDots p) =
      escDots p :=
    replaceAll_id '*' (by decide) hstar_not
  have hid4 : replaceAll "\\*".toList ("\\" ++ "#$~").toList (escDots p) =
      escDots p :=
    replaceAll_id '*' (by decide) hstar_not
  have hid5 : replaceAll "*".toList "([^/]*)".toList (escDots p) = escDots p :=
    replaceAll_id '*' (by decide) hstar_not
  have hid6 : replaceAll "?".toList "\\?".toList (escDots p) = escDots p :=
    replaceAll_id '?' (by decide) hqm_not
  have hid7 : replaceAll magicStar "*".toList (escDots p) = escDots p :=
    replaceAll_id '#' (by decide) hhash_not
  have hlast2 : ¬((escDots p).getLast? = some '/') :=
    fun h => hlast (escDots_getLast h)
  have hlw5 : leadsWith ['/'] (escDots p ++ "(|/.*)$".toList) = false := by
    refine leadsWith_false_of_head ?_
    intro c hc
    apply hesc_head c
    cases hq : escDots p with
    | nil => exact absurd hq (escDots_ne_nil hne)
    | cons a t =>
        rw [hq] at hc
        simpa using hc
  unfold assembleExpr expandStars dropLeadingDoubleStar addSuffix addAnchor
  rw [replaceAll_dot, hlw4, if_neg Bool.false_ne_true, hid1, hid2, hid3, hid4,
    hid5, hid6, hid7, if_neg hlast2, hlw5, if_neg Bool.false_ne_true, litExpr,
    List.append_assoc]

theorem classifyLine_lit {p : List Char} (hne : p ≠ [])
    (hchars : ∀ c ∈ p, litChar c = true ∨ c = '/')
    (hhead : p.head? ≠ some '/') :
    classifyLine p = some (false, p) := by
  have hch : ∀ x, litChar x = false → x ≠ '/' → ∀ c ∈ p, c ≠ x :=
    fun x hx hxs c hc => litp_ne (hchars c hc) hx hxs
  have hheadlit : ∀ c, p.head? = some c → litChar c = true := by
    intro c hc
    have hcm : c ∈ p := by
      cases p with
      | nil => cases hc
      | cons a t =>
          obtain rfl : a = c := by simpa using hc
          exact List.mem_cons_self _ _
    rcases hchars c hcm with h | rfl
    · exact h
    · exact absurd hc hhead
  have hhead_ne : ∀ x, litChar x = false → ∀ c, p.head? = some c → c ≠ x := by
    intro x hx c hc hcx
    subst hcx
    rw [hheadlit c hc] at hx
    cases hx
  have htrim1 : trimRightCR p = p :=
    trimRightCR_id (hch '\r' (by decide) (by decide))
  have hlw1 : leadsWith ['#'] p = false :=
    leadsWith_false_of_head (hhead_ne '#' (by decide))
  have htrim2 : trimSpaces p = p :=
    trimSpaces_id (hch ' ' (by decide) (by decide))
  have hlw2 : leadsWith ['!'] p = false :=
    leadsWith_false_of_head (hhead_ne '!' (by decide))
  have hslash : needsSlashAnchor p = false :=
    needsSlashAnchor_false (hch '*' (by decide) (by decide))
  simp only [classifyLine]
  rw [htrim1, hlw1, if_neg Bool.false_ne_true, htrim2, if_neg hne, hlw2,
    if_neg Bool.false_ne_true, hlw1, hlw2, Bool.or_self,
    if_neg Bool.false_ne_true, hslash, Bool.false_and,
    if_neg Bool.false_ne_true]

theorem processLine_lit {p : List Char} (hp : LitRule p) :
    processLine p = .pat ⟨litAST p, false⟩ := by
  obtain ⟨hne, hchars, hhead, hlast⟩ := hp
  have hcls : classifyLine p = some (false, p) := classifyLine_lit hne hchars hhead
  have hasm : assembleExpr p = litExpr p := assembleExpr_lit hne hchars hhead hlast
  have hcomp : regexCompile (litExpr p) = some (litAST p) := regexCompile_lit p hchars
  show (match classifyLine p with
        | none => LineRes.skip
        | some (negate, line5) =>
            match regexCompile (assembleExpr line5) with
            | some r => LineRes.pat ⟨r, negate⟩
            | none => LineRes.err (assembleExpr line5)) =
      LineRes.pat ⟨litAST p, false⟩
  rw [hcls]
  show (match regexCompile (assembleExpr p) with
        | some r => LineRes.pat ⟨r, false⟩
        | none => LineRes.err (assembleExpr p)) = LineRes.pat ⟨litAST p, false⟩
  rw [hasm, hcomp]

theorem Parse_single {p : List Char} (hp : LitRule p) :
    Parse [p] = .ok [⟨litAST p, false⟩] := by
  show parseLoop [p] 1 = _
  rw [parseLoop, processLine_lit hp]
  rfl

theorem normalizeSep_id (path : List Char) : normalizeSep path = path := by
  unfold normalizeSep
  have h : ∀ c : Char, (if c = pathSeparator then '/' else c) = c := by
    intro c
    by_cases hc : c = pathSeparator
    · rw [if_pos hc]; exact hc.symm
    · rw [if_neg hc]
  simp [h]

theorem Match_single (R : Regex) (path : List Char) :
    File.Match ⟨[⟨R, false⟩]⟩ path = rmatch R path := by
  show matchLoop [⟨R, false⟩] (normalizeSep path) false = rmatch R path
  rw [normalizeSep_id]
  cases h : rmatch R path <;> simp [matchLoop, h]

/-!
The language of the compiled form of a literal rule: an optional prefix of
whole path segments, the rule itself, and an optional nested remainder.
-/

theorem lang_litFold (p : List Char) (k : Regex) :
    ∀ s, Lang (litFold p k) s ↔ ∃ t, s = p ++ t ∧ Lang k t := by
  induction p with
  | nil => intro s; simp [litFold]
  | cons c cs ih =>
      intro s
      simp only [litFold, lang_seqr_iff, lang_char_iff]
      constructor
      · rintro ⟨s1, s2, rfl, rfl, h2⟩
        rcases (ih s2).mp h2 with ⟨t, rfl, hk⟩
        exact ⟨t, by simp, hk⟩
      · rintro ⟨t, rfl, hk⟩
        exact ⟨[c], cs ++ t, by simp, rfl, (ih _).mpr ⟨t, rfl, hk⟩⟩

theorem lang_star_anyc (s : List Char) :
    Lang (.star .anyc) s ↔ ∀ c ∈ s, c ≠ '\n' := by
  constructor
  · have aux : ∀ s, Lang (.star .anyc) s → ∀ c ∈ s, c ≠ '\n' := by
      intro s
      induction s with
      | nil => intro _ c hc; cases hc
      | cons c t ih =>
          intro h x hx
          rcases lang_star_cons _ _ _ h with ⟨s1, s2, ht, h1, h2⟩
          rcases (lang_anyc_iff _).mp h1 with ⟨d, hd, hdn⟩
          obtain ⟨hcd, hs1⟩ := List.cons_eq_cons.mp hd
          subst hs1
          rw [List.nil_append] at ht
          subst ht
          rcases List.mem_cons.mp hx with rfl | hx2
          · rw [hcd]; exact hdn
          · exact ih h2 x hx2
    exact aux s
  · have aux : ∀ s, (∀ c ∈ s, c ≠ '\n') → Lang (.star .anyc) s := by
      intro s
      induction s with
      | nil => intro _; exact Lang.starNil _
      | cons c t ih =>
          intro h
          have h1 : Lang .anyc [c] :=
            (lang_anyc_iff _).mpr ⟨c, rfl, h c (List.mem_cons_self _ _)⟩
          have h2 : Lang (.star .anyc) t :=
            ih fun x hx => h x (List.mem_cons_of_mem _ hx)
          exact Lang.starCons _ [c] t h1 h2
    exact aux s

theorem lang_G1 (s : List Char) :
    Lang G1 s ↔ s = [] ∨ ∃ u, s = u ++ ['/'] ∧ ∀ c ∈ u, c ≠ '\n' := by
  unfold G1
  rw [lang_alt_iff, lang_eps_iff, lang_seqr_iff]
  constructor
  · rintro (rfl | ⟨s1, s2, rfl, h1, h2⟩)
    · exact Or.inl rfl
    · rw [lang_seqr_iff] at h2
      rcases h2 with ⟨s3, s4, rfl, h3, h4⟩
      rw [lang_char_iff] at h3
      rw [lang_eps_iff] at h4
      subst h3
      subst h4
      exact Or.inr ⟨s1, by simp, (lang_star_anyc s1).mp h1⟩
  · rintro (rfl | ⟨u, rfl, hu⟩)
    · exact Or.inl rfl
    · refine Or.inr ⟨u, ['/'], rfl, (lang_star_anyc u).mpr hu, ?_⟩
      rw [lang_seqr_iff]
      exact ⟨['/'], [], rfl, Lang.char '/', Lang.eps⟩

theorem lang_G2e (t : List Char) :
    Lang (.seqr G2 .eps) t ↔ t = [] ∨ ∃ u, t = '/' :: u ∧ ∀ c ∈ u, c ≠ '\n' := by
  rw [lang_seqr_iff]
  constructor
  · rintro ⟨a, b, rfl, ha, hb⟩
    rw [lang_eps_iff] at hb
    subst hb
    unfold G2 at ha
    rw [lang_alt_iff, lang_eps_iff] at ha
    rcases ha with rfl | ha
    · exact Or.inl (by simp)
    · rw [lang_seqr_iff] at ha
      rcases ha with ⟨a1, a2, rfl, h1, h2⟩
      rw [lang_char_iff] at h1
      subst h1
      rw [lang_seqr_iff] at h2
      rcases h2 with ⟨b1, b2, rfl, h3, h4⟩
      rw [lang_eps_iff] at h4
      subst h4
      exact Or.inr ⟨b1, by simp, (lang_star_anyc b1).mp h3⟩
  · rintro (rfl | ⟨u, rfl, hu⟩)
    · exact ⟨[], [], rfl, Lang.altL _ _ _ Lang.eps, Lang.eps⟩
    · refine ⟨'/' :: u, [], by simp, ?_, Lang.eps⟩
      unfold G2
      refine Lang.altR _ _ _ ?_
      have h2 : Lang (.seqr (.star .anyc) .eps) u := by
        rw [lang_seqr_iff]
        exact ⟨u, [], by simp, (lang_star_anyc u).mpr hu, Lang.eps⟩
      exact Lang.seqr _ _ ['/'] u (Lang.char '/') h2

theorem lang_litAST (p path : List Char) :
    Lang (litAST p) path ↔
      ∃ s t, path = s ++ p ++ t ∧
        (s = [] ∨ ∃ u, s = u ++ ['/'] ∧ ∀ c ∈ u, c ≠ '\n') ∧
        (t = [] ∨ ∃ u, t = '/' :: u ∧ ∀ c ∈ u, c ≠ '\n') := by
  unfold litAST
  rw [lang_seqr_iff]
  constructor
  · rintro ⟨s, rest, rfl, hG1, hrest⟩
    rcases (lang_litFold _ _ _).mp hrest with ⟨t, rfl, hG2⟩
    exact ⟨s, t, by simp, (lang_G1 _).mp hG1, (lang_G2e _).mp hG2⟩
  · rintro ⟨s, t, rfl, hs, ht⟩
    exact ⟨s, p ++ t, by simp, (lang_G1 _).mpr hs,
      (lang_litFold _ _ _).mpr ⟨t, rfl, (lang_G2e _).mpr ht⟩⟩

/-- Claim C1, counterexample: the rule set compiled from the single literal
rule foo also matches the path bar/foo, which is neither equal to foo nor
starts with foo followed by a slash, so matching is not limited to the two
families of paths the claim allows. -/
theorem C1_counterexample :
    (NewFromLines ["foo".toList]).map (fun f => f.Match "bar/foo".toList) = .ok true ∧
    "bar/foo".toList ≠ "foo".toList ∧
    leadsWith "foo/".toList "bar/foo".toList = false := by
  refine ⟨rfl, by decide, rfl⟩

/-- Claim C1, amended: for a single positive literal rule p, built from
plain characters (not glob or regexp metacharacters, not comment or
negation markers, no spaces) with inner slashes allowed but no leading or
trailing slash, the compiled rule set matches a newline-free path exactly
when the path splits as a prefix that is empty or ends in a slash, then p
itself, then a suffix that is empty or starts with a slash; that is,
matching is not limited to the path p and paths below it, the rule also
matches p as a trailing segment sequence under any directory prefix. -/
theorem C1_amended (p path : List Char) (hp : LitRule p)
    (hpath : ∀ c ∈ path, c ≠ '\n') :
    ∃ r : Pattern, Parse [p] = .ok [r] ∧ r.negate = false ∧
      (File.Match ⟨[r]⟩ path = true ↔
        ∃ s t, path = s ++ p ++ t ∧
          (s = [] ∨ s.getLast? = some '/') ∧
          (t = [] ∨ t.head? = some '/')) := by
  refine ⟨⟨litAST p, false⟩, Parse_single hp, rfl, ?_⟩
  rw [Match_single, rmatch_iff, lang_litAST]
  constructor
  · rintro ⟨s, t, rfl, hs, ht⟩
    refine ⟨s, t, rfl, ?_, ?_⟩
    · rcases hs with rfl | ⟨u, rfl, _⟩
      · exact Or.inl rfl
      · exact Or.inr (by simp)
    · rcases ht with rfl | ⟨u, rfl, _⟩
      · exact Or.inl rfl
      · exact Or.inr rfl
  · rintro ⟨s, t, rfl, hs, ht⟩
    refine ⟨s, t, rfl, ?_, ?_⟩
    · rcases hs with rfl | hs
      · exact Or.inl rfl
      · have hsne : s ≠ [] := by rintro rfl; simp at hs
        refine Or.inr ⟨s.dropLast, ?_, ?_⟩
        · have hval : s.getLast hsne = '/' := by
            have hq := List.getLast?_eq_getLast s hsne
            rw [hq] at hs
            simpa using hs
          conv_lhs => rw [← List.dropLast_append_getLast hsne]
          rw [hval]
        · intro c hc
          exact hpath c (List.mem_append_left _
            (List.mem_append_left _ (List.dropLast_subset s hc)))
    · rcases ht with rfl | ht
      · exact Or.inl rfl
      · cases t with
        | nil => simp at ht
        | cons a u =>
            obtain rfl : a = '/' := by simpa using ht
            refine Or.inr ⟨u, rfl, ?_⟩
            intro c hc
            exact hpath c (List.mem_append_right _ (List.mem_cons_of_mem _ hc))

/-- Claim C1, witness: the amended characterisation applied to the literal
rule foo and the path bar/foo. -/
theorem C1_witness :
    ∃ r : Pattern, Parse ["foo".toList] = .ok [r] ∧ r.negate = false ∧
      (File.Match ⟨[r]⟩ "bar/foo".toList = true ↔
        ∃ s t, "bar/foo".toList = s ++ "foo".toList ++ t ∧
          (s = [] ∨ s.getLast? = some '/') ∧
          (t = [] ∨ t.head? = some '/')) :=
  C1_amended "foo".toList "bar/foo".toList (by decide) (by decide)

/-- Claim C2, counterexample: the line bang hash foo compiles to a negation
rule, but its matcher rejects the path hash foo (the claim says it accepts
it), and the line bang bang foo compiles to a negation rule whose matcher
rejects the path bang foo. -/
theorem C2_counterexample :
    (Parse ["!#foo".toList]).map
        (fun ps => ps.map fun r => (r.negate, rmatch r.regex "#foo".toList)) =
      .ok [(true, false)] ∧
    (Parse ["!!foo".toList]).map
        (fun ps => ps.map fun r => (r.negate, rmatch r.regex "!foo".toList)) =
      .ok [(true, false)] := by
  refine ⟨rfl, rfl⟩

/-- Claim C2, amended: negation extraction happens first, but the following
escape-resolution step strips a leading hash or bang without requiring a
backslash, so after the leading bang of the line bang hash foo the hash is
also stripped: the line compiles to a negation rule whose matcher accepts
the path foo and rejects hash foo, and bang bang foo compiles to a negation
rule whose matcher accepts foo and rejects bang foo. -/
theorem C2_amended :
    (Parse ["!#foo".toList]).map
        (fun ps => ps.map fun r =>
          (r.negate, rmatch r.regex "foo".toList, rmatch r.regex "#foo".toList)) =
      .ok [(true, true, false)] ∧
    (Parse ["!!foo".toList]).map
        (fun ps => ps.map fun r =>
          (r.negate, rmatch r.regex "foo".toList, rmatch r.regex "!foo".toList)) =
      .ok [(true, true, false)] := by
  refine ⟨rfl, rfl⟩

/-- Claim C3: Match scans the rules in order over the separator-normalised
path with the verdict starting false; a matching negation rule anywhere in
the sequence makes Match return false, discarding any prior positive match
and ignoring all later rules; when no negation rule matches, the verdict is
simply whether some rule matches; and on the rule set of star dot log plus
negated important dot log, the path important dot log gets verdict false. -/
theorem C3_match_algorithm :
    (∀ (pre : List Pattern) (nr : Pattern) (post : List Pattern) (path : List Char),
        nr.negate = true → rmatch nr.regex (normalizeSep path) = true →
        File.Match ⟨pre ++ nr :: post⟩ path = false) ∧
    (∀ (f : File) (path : List Char),
        (∀ r ∈ f.patterns, r.negate = true → rmatch r.regex (normalizeSep path) = false) →
        File.Match f path = (f.patterns.any fun r => rmatch r.regex (normalizeSep path))) ∧
    (NewFromLines ["*.log".toList, "!important.log".toList]).map
        (fun f => f.Match "important.log".toList) = .ok false := by
  refine ⟨?_, ?_, rfl⟩
  · intro pre nr post path hneg hm
    rw [Match_eq]
    have hN : (pre ++ nr :: post).any (fun r => r.negate && rmatch r.regex (normalizeSep path)) = true := by
      rw [List.any_eq_true]
      exact ⟨nr, by simp, by simp [hneg, hm]⟩
    simp [hN]
  · intro f path hno
    rw [Match_eq]
    have hneg : (f.patterns.any fun r => r.negate && rmatch r.regex (normalizeSep path)) = false := by
      rw [List.any_eq_false]
      intro r hr
      cases hn : r.negate
      · simp
      · simp [hno r hr hn]
    rw [hneg]
    have hpos : (f.patterns.any fun r => !r.negate && rmatch r.regex (normalizeSep path)) =
        (f.patterns.any fun r => rmatch r.regex (normalizeSep path)) := by
      apply any_congrB
      intro r hr
      cases hn : r.negate
      · simp
      · simp [hno r hr hn]
    rw [hpos]
    simp

/-- Claim C3, witness: instantiates the negation-short-circuit part at a
one-rule set whose negation rule matches the path. -/
theorem C3_witness :
    File.Match ⟨[] ++ ⟨.anyc, true⟩ :: [⟨.anyc, false⟩]⟩ ['a'] = false :=
  C3_match_algorithm.1 [] ⟨.anyc, true⟩ [⟨.anyc, false⟩] ['a'] rfl (by decide)

/-- Claim C4: on the rule set star dot txt, negated important slash star
dot txt, important slash temp slash star dot txt, the path important slash
temp slash data dot txt is matched (verdict true): the negation rule's
matcher does not accept that path, and both positive rules do. -/
theorem C4_order_dependent_quirk :
    (NewFromLines ["*.txt".toList, "!important/*.txt".toList, "important/temp/*.txt".toList]).map
        (fun f => f.Match "important/temp/data.txt".toList) = .ok true ∧
    (Parse ["*.txt".toList, "!important/*.txt".toList, "important/temp/*.txt".toList]).map
        (fun ps => ps.map fun r =>
          (r.negate, rmatch r.regex "important/temp/data.txt".toList)) =
      .ok [(false, true), (true, false), (false, true)] := by
  refine ⟨rfl, rfl⟩

/-- Claim C5: the single rule double star slash foo matches foo and bar
slash foo but not bar slash baz; the single rule slash double star slash
foo matches foo, slash foo and bar slash foo. -/
theorem C5_double_star :
    (NewFromLines ["**/foo".toList]).map (fun f => f.Match "foo".toList) = .ok true ∧
    (NewFromLines ["**/foo".toList]).map (fun f => f.Match "bar/foo".toList) = .ok true ∧
    (NewFromLines ["**/foo".toList]).map (fun f => f.Match "bar/baz".toList) = .ok false ∧
    (NewFromLines ["/**/foo".toList]).map (fun f => f.Match "foo".toList) = .ok true ∧
    (NewFromLines ["/**/foo".toList]).map (fun f => f.Match "/foo".toList) = .ok true ∧
    (NewFromLines ["/**/foo".toList]).map (fun f => f.Match "bar/foo".toList) = .ok true := by
  refine ⟨rfl, rfl, rfl, rfl, rfl, rfl⟩

/-- Claim C6: the single rule foo slash matches the directory path foo
slash and the nested path foo slash bar, but not the bare path foo. -/
theorem C6_trailing_slash :
    (NewFromLines ["foo/".toList]).map (fun f => f.Match "foo/".toList) = .ok true ∧
    (NewFromLines ["foo/".toList]).map (fun f => f.Match "foo/bar".toList) = .ok true ∧
    (NewFromLines ["foo/".toList]).map (fun f => f.Match "foo".toList) = .ok false := by
  refine ⟨rfl, rfl, rfl⟩

/-- Claim C7: the question mark is a literal, not a single-character
wildcard: the rule a question mark c matches the path a question mark c but
not abc; the star excludes the slash: the rule a star c does not match a
slash c, while it does match abc and axyzc. -/
theorem C7_literal_question_mark :
    (NewFromLines ["a?c".toList]).map (fun f => f.Match "a?c".toList) = .ok true ∧
    (NewFromLines ["a?c".toList]).map (fun f => f.Match "abc".toList) = .ok false ∧
    (NewFromLines ["a*c".toList]).map (fun f => f.Match "a/c".toList) = .ok false ∧
    (NewFromLines ["a*c".toList]).map (fun f => f.Match "abc".toList) = .ok true ∧
    (NewFromLines ["a*c".toList]).map (fun f => f.Match "axyzc".toList) = .ok true := by
  refine ⟨rfl, rfl, rfl, rfl, rfl⟩

/-- Claim C8: a malformed pattern aborts the whole compilation with an
error naming the offending line number and the assembled expression text,
whatever valid lines follow, and with a valid line before it the reported
line number is that of the malformed line; no rule set is returned. -/
theorem C8_compile_error :
    (∀ post, Parse ("[invalid-regex".toList :: post) =
        .error ⟨1, "^(|.*/)[invalid-regex(|/.*)$".toList⟩) ∧
    (∀ post, Parse ("*.log".toList :: "[invalid-regex".toList :: post) =
        .error ⟨2, "^(|.*/)[invalid-regex(|/.*)$".toList⟩) := by
  refine ⟨fun post => rfl, fun post => rfl⟩

/-- Claim C9: the rule backslash hash abc matches the path hash abc, while
the line hash abc is a comment: it compiles to the empty rule set, and the
empty rule set matches no path at all. -/
theorem C9_escaped_comment :
    (NewFromLines ["\\#abc".toList]).map (fun f => f.Match "#abc".toList) = .ok true ∧
    Parse ["#abc".toList] = .ok [] ∧
    ∀ path, File.Match ⟨[]⟩ path = false := by
  refine ⟨rfl, rfl, fun path => rfl⟩

/-- Claim C10: the verdict of Match is invariant under permutation of the
rule sequence; Match is true exactly when some non-negated rule's matcher
accepts the normalised path and no negated rule's matcher accepts it; and
the empty rule set gives false for every path. -/
theorem C10_order_invariance :
    (∀ (f g : File) (path : List Char), f.patterns.Perm g.patterns →
        f.Match path = g.Match path) ∧
    (∀ (f : File) (path : List Char),
        f.Match path = true ↔
          ((∃ r ∈ f.patterns, r.negate = false ∧ rmatch r.regex (normalizeSep path) = true) ∧
            ∀ r ∈ f.patterns, r.negate = true → rmatch r.regex (normalizeSep path) = false)) ∧
    (∀ path, File.Match ⟨[]⟩ path = false) := by
  refine ⟨?_, ?_, fun path => rfl⟩
  · intro f g path hperm
    rw [Match_eq, Match_eq, any_perm hperm, any_perm hperm]
  · intro f path
    rw [Match_eq, Bool.and_eq_true, Bool.not_eq_true']
    constructor
    · rintro ⟨hpos, hneg⟩
      rw [List.any_eq_true] at hpos
      rcases hpos with ⟨r, hr, hb⟩
      rw [Bool.and_eq_true] at hb
      refine ⟨⟨r, hr, by simpa using hb.1, hb.2⟩, ?_⟩
      intro q hq hqn
      rw [List.any_eq_false] at hneg
      have hq2 := hneg q hq
      rw [hqn] at hq2
      simpa using hq2
    · rintro ⟨⟨r, hr, hrn, hrm⟩, hneg⟩
      constructor
      · rw [List.any_eq_true]
        exact ⟨r, hr, by simp [hrn, hrm]⟩
      · rw [List.any_eq_false]
        intro q hq
        cases hqn : q.negate
        · simp
        · simp [hneg q hq hqn]

/-- Claim C10, witness: instantiates the permutation part at a two-rule set
and its swap. -/
theorem C10_witness :
    File.Match ⟨[⟨.char 'a', false⟩, ⟨.anyc, true⟩]⟩ ['a'] =
      File.Match ⟨[⟨.anyc, true⟩, ⟨.char 'a', false⟩]⟩ ['a'] :=
  C10_order_invariance.1 ⟨[⟨.char 'a', false⟩, ⟨.anyc, true⟩]⟩
    ⟨[⟨.anyc, true⟩, ⟨.char 'a', false⟩]⟩ ['a'] (by decide)

end GI
